import Mathlib

/-!
Shallow embedding of `disteval/recursive_selection_parallel.py`: the recursive
forward-selection / backward-elimination search driven by cross-validated
ROC-AUC scores.

Modelling conventions:

* A numpy float vector is `List ℚ`; a float vector that may hold NaN entries is
  `List (Option ℚ)` with `none` standing for `np.nan` (an entry `e` is finite,
  `np.isfinite(e)`, exactly when `e = some q`).
* The feature matrix `X` is row-major: entry `i` of the outer list is sample
  `i`.  `X.shape[1]` is the length of the first row (numpy arrays are
  rectangular).
* The classifier is the external `{fit, predict_proba}` capability of the
  spec.  Its internal, sklearn-style mutable state has an abstract type `St`;
  `fit` returns the state of the object that `clf.fit(...)` returns.  In
  sklearn, `fit` mutates the receiver in place and returns that same object,
  so the state returned by `fit` is also the new state of the aliased argument
  object.  The program manipulates exactly one classifier object (the caller's
  prototype), hence the heap is represented by threading that single state
  value; a function returns the classifier state alongside its result wherever
  the in-place mutation of the aliased object is observable by the caller.
* `roc_auc_score` and `StratifiedKFold(n_splits, shuffle=True,
  random_state=rs).split(X, y)` are the externally supplied statistical
  primitives of the spec; they are abstract fields of `Env`.
* An `np.random.RandomState` value is modelled as a `Nat` seed.  Constructing
  `np.random.RandomState(None)` draws a fresh value from the ambient
  process-global numpy entropy, which is modelled as an explicit argument
  (`fresh` for a single construction, an `entropy : Nat → Nat` stream for the
  search loop, indexed by the number of constructions performed so far, i.e.
  by the current step = `len(selected_features)`).
* Python operations that can raise return `Except String`, carrying the
  exception kind in the message.
-/

abbrev Vec := List ℚ
abbrev Mat := List (List ℚ)

instance {ε α : Type} [DecidableEq ε] [DecidableEq α] : DecidableEq (Except ε α) := fun x y =>
  match x, y with
  | .error a, .error b => decidable_of_iff (a = b) (by simp)
  | .ok a, .ok b => decidable_of_iff (a = b) (by simp)
  | .error _, .ok _ => isFalse (fun h => Except.noConfusion h)
  | .ok _, .error _ => isFalse (fun h => Except.noConfusion h)

/-- `X.shape[1]` for a row-major matrix. -/
def width (X : Mat) : Nat := (X.headD []).length

/-- Row selection `X[idx]` by an integer index array. -/
def rowsM (X : Mat) (idx : List Nat) : Mat := idx.map (fun i => X.getD i [])

/-- Vector selection `v[idx]` by an integer index array. -/
def rowsV (v : Vec) (idx : List Nat) : Vec := idx.map (fun i => v.getD i 0)

/-- Column selection `X[:, js]`. -/
def colsM (X : Mat) (js : List Nat) : Mat :=
  X.map (fun row => js.map (fun j => row.getD j 0))

/-- Indexed numpy assignment `v[idx] = vals` (element-wise; the external
contract guarantees `idx` and `vals` have the same length). -/
def setAt (v : Vec) (idx : List Nat) (vals : Vec) : Vec :=
  (idx.zip vals).foldl (fun acc p => acc.set p.1 p.2) v

def insertNat (n : Nat) : List Nat → List Nat
  | [] => [n]
  | m :: t => if n ≤ m then n :: m :: t else m :: insertNat n t

/-- `np.sort` for an int array (ascending insertion sort). -/
def sortNat : List Nat → List Nat
  | [] => []
  | m :: t => insertNat m (sortNat t)

/-- The external classifier capability set `{fit, predict_proba}`.
`predictProba1 st X` is column 1 of `predict_proba(X)`: the class-1
probability for each row of `X`. -/
structure Classifier (St : Type) where
  fit : St → Mat → Vec → Option Vec → St
  predictProba1 : St → Mat → Vec

/-- External collaborators of the module: the classifier prototype (object
state `clf0`, behaviour `clf`), `sklearn.metrics.roc_auc_score`
(`auc y_true y_score sample_weight`), and the CV split plan produced by
`StratifiedKFold(n_splits=k, shuffle=True, random_state=rs).split(X, y)`
(`split X y k rs`, a list of `(train_indices, test_indices)` pairs). -/
structure Env (St : Type) where
  clf : Classifier St
  clf0 : St
  auc : Vec → Vec → Option Vec → ℚ
  split : Mat → Vec → Nat → Nat → List (List Nat × List Nat)

/-- `__single_auc_score__(feature_i, clf, cv_indices, X, y, sample_weight)`
(source lines 153-209).  `X` is already column-restricted by the caller.

Faithful to the source's layout: the fold loop (lines 194-206) only re-fits
`clf` (`clf = clf.fit(...)`, threading the single aliased instance through the
folds); the prediction write `y_pred[test_idx] = clf.predict_proba(X_test)[:, 1]`
sits at line 207, OUTSIDE the loop, so it runs once with the loop variables'
final values (the last fold's `test_idx`, `X_test`, `sample_weight_test`).
`roc_auc_score` is then called on the full `y` against a `y_pred` that holds
zeros everywhere except the last fold's test rows.  With an empty `cv_indices`
the loop never runs and line 207 raises `NameError` (`test_idx` unbound).
The returned `St` is the final state of the (in-place mutated) classifier
object, i.e. the state the caller's aliased `clf` argument ends up with. -/
def singleAucScore {St : Type} (E : Env St) (feature_i : Nat) (clf : St)
    (cv_indices : List (List Nat × List Nat)) (X : Mat) (y : Vec)
    (sample_weight : Option Vec) : Except String ((Nat × ℚ) × St) :=
  let clfF := cv_indices.foldl
    (fun s p =>
      E.clf.fit s (rowsM X p.1) (rowsV y p.1)
        (sample_weight.map (fun w => rowsV w p.1))) clf
  match cv_indices.getLast? with
  | none => .error "NameError: test_idx is not defined"
  | some lastFold =>
    let test_idx := lastFold.2
    let X_test := rowsM X test_idx
    let sample_weight_test := sample_weight.map (fun w => rowsV w test_idx)
    let y_pred := setAt (List.replicate y.length (0 : ℚ)) test_idx
      (E.clf.predictProba1 clfF X_test)
    .ok ((feature_i, E.auc y y_pred sample_weight_test), clfF)

/-- Modelled from the spec: the corrected accumulating Single-Candidate Scorer
of sections 4.1 and 9 ("accumulate every fold's test predictions into one
full-length vector before computing AUC once over all folds", fitting each
fold before predicting on that fold's test rows).  This definition follows the
spec's words, not the source, and exists to be compared with
`singleAucScore`. -/
def singleAucScoreAccum {St : Type} (E : Env St) (feature_i : Nat) (clf : St)
    (cv_indices : List (List Nat × List Nat)) (X : Mat) (y : Vec)
    (sample_weight : Option Vec) : (Nat × ℚ) × St :=
  let r := cv_indices.foldl
    (fun (acc : St × Vec) p =>
      let s2 := E.clf.fit acc.1 (rowsM X p.1) (rowsV y p.1)
        (sample_weight.map (fun w => rowsV w p.1))
      (s2, setAt acc.2 p.2 (E.clf.predictProba1 s2 (rowsM X p.2))))
    (clf, List.replicate y.length (0 : ℚ))
  ((feature_i, E.auc y r.2 sample_weight), r.1)

/-- `np.array(selected_features, dtype=int)`: converting a Python list that
contains `None` to an int array raises `TypeError`. -/
def pyIntArray : List (Option Nat) → Except String (List Nat)
  | [] => .ok []
  | none :: _ => .error "TypeError: int argument must not be None"
  | some n :: t =>
    match pyIntArray t with
    | .error e => .error e
    | .ok r => .ok (n :: r)

/-- Python list item assignment `l[i] = v`: raises `IndexError` when `i` is
out of range (in particular always on an empty list). -/
def setListStrict (l : List (Option ℚ)) (i : Nat) (v : ℚ) :
    Except String (List (Option ℚ)) :=
  if i < l.length then .ok (l.set i (some v))
  else .error "IndexError: list assignment index out of range"

/-- `get_all_auc_scores(clf, selected_features, X, y, sample_weight, cv_steps,
n_jobs, forward, random_state)` (source lines 212-328).

Order of operations follows the source: coerce `random_state`
(`np.random.RandomState(random_state)`, drawing `fresh` ambient entropy when
the argument is `None`), convert `selected_features` to an int array, validate
`cv_steps >= 2`, build the CV split plan once, enumerate the candidate
features and their test feature sets, then score.  The source also builds an
unused `process_args` list (lines 277-289); being pure and dead, it is
omitted.

With `n_jobs > 1` each submitted worker receives a pickled copy of the
classifier prototype (state `clf` as passed in, never the state left by
another worker), `wait` collects every future, and each result lands in
`auc_scores[feature_i]` of the NaN-initialised full-length array; the caller's
prototype object is untouched by the workers, so the returned state is `clf`.

With `n_jobs <= 1` the source first rebinds `auc_scores = []` (line 319,
discarding the NaN array) and then assigns `auc_scores[feature_i] = auc` into
that plain Python list — an `IndexError` for any candidate.  The same `clf`
object is passed to every sequential `__single_auc_score__` call, so its
(in-place mutated) state threads through the candidate evaluations. -/
def getAllAucScores {St : Type} (E : Env St) (clf : St)
    (selected_features : List (Option Nat)) (X : Mat) (y : Vec)
    (sample_weight : Option Vec) (cv_steps : Nat) (n_jobs : Nat)
    (forward : Bool) (random_state : Option Nat) (fresh : Nat) :
    Except String (List (Option ℚ) × St) :=
  let rs : Nat := match random_state with | some r => r | none => fresh
  match pyIntArray selected_features with
  | .error e => .error e
  | .ok selN =>
    if cv_steps < 2 then
      .error "ValueError: cv_steps must be 2 or higher"
    else
      let cv_indices := E.split X y cv_steps rs
      let test_features := (List.range (width X)).filter (fun i => decide (i ∉ selN))
      let test_sets := test_features.map (fun fi =>
        if forward then (fi, sortNat (selN ++ [fi]))
        else (fi, test_features.erase fi))
      if n_jobs > 1 then
        match test_sets.mapM (fun p =>
            (singleAucScore E p.1 clf cv_indices (colsM X p.2) y sample_weight).map
              (fun r => r.1)) with
        | .error e => .error e
        | .ok results =>
          .ok (results.foldl (fun acc r => acc.set r.1 (some r.2))
                (List.replicate (width X) (none : Option ℚ)), clf)
      else
        test_sets.foldlM (fun (acc : List (Option ℚ) × St) p =>
          match singleAucScore E p.1 acc.2 cv_indices (colsM X p.2) y sample_weight with
          | .error e => .error e
          | .ok rr =>
            match setListStrict acc.1 p.1 rr.1.2 with
            | .error e => .error e
            | .ok l2 => .ok (l2, rr.2)) (([] : List (Option ℚ)), clf)

/-- One pass of the Selection Policy loop body (source lines 123-146) for the
entry `auc` at position `idx`, given the running `(value_best, index_best)`
pair.  A NaN entry is skipped (`continue`); a `None` running best is seeded by
the current entry and then the (strict) comparison runs against the freshly
seeded value. -/
def updateBest (matching forward : Bool) (best : Option (ℚ × Nat)) (idx : Nat)
    (auc : Option ℚ) : Option (ℚ × Nat) :=
  match auc with
  | none => best
  | some a =>
    let best1 := match best with
      | none => some (a, idx)
      | some b => some b
    match best1 with
    | none => none
    | some vb =>
      if matching then
        if forward then
          if |a - 1/2| < |vb.1 - 1/2| then some (a, idx) else some vb
        else
          if |a - 1/2| > |vb.1 - 1/2| then some (a, idx) else some vb
      else
        if forward then
          if a > vb.1 then some (a, idx) else some vb
        else
          if a < vb.1 then some (a, idx) else some vb

/-- The Selection Policy scan `for idx, auc in enumerate(auc_scores_i)`
(source lines 121-146), written as explicit recursion on the scored array with
a running index. -/
def selectLoop (matching forward : Bool) :
    List (Option ℚ) → Nat → Option (ℚ × Nat) → Option (ℚ × Nat)
  | [], _, best => best
  | a :: rest, idx, best =>
    selectLoop matching forward rest (idx + 1) (updateBest matching forward best idx a)

/-- The Selection Policy: the `index_best` left by the scan (possibly `None`
when no finite score exists). -/
def selectBest (scores : List (Option ℚ)) (matching forward : Bool) : Option Nat :=
  (selectLoop matching forward scores 0 none).map (fun p => p.2)

/-- Numpy column assignment `auc_scores[:, j] = colv` on a column-major score
matrix: `IndexError` when the column index is out of range, `ValueError` when
the assigned vector's length does not match the column height. -/
def matSetCol (mat : List (List (Option ℚ))) (j : Nat) (colv : List (Option ℚ)) :
    Except String (List (List (Option ℚ))) :=
  if j < mat.length then
    if colv.length = (mat.getD j []).length then .ok (mat.set j colv)
    else .error "ValueError: could not broadcast input array"
  else .error "IndexError: index out of bounds"

/-- The `while len(selected_features) != n_features` search loop (source lines
112-148), run for `k` remaining iterations.  Each iteration appends exactly
one entry to `selected_features`, so starting from the empty list the loop
runs exactly `n_features` iterations whenever `n_features ≥ 0` (and
`n_features < 0` never reaches the loop, see
`recursive_feature_selection_roc_auc`); the countdown `k` is therefore a
faithful rendering of the loop guard.  Each step calls `get_all_auc_scores`
with no `random_state` argument (`None`), so a fresh
`np.random.RandomState(None)` is built from ambient entropy
(`entropy len(selected_features)`). -/
def recLoop {St : Type} (E : Env St) (entropy : Nat → Nat) (X : Mat) (y : Vec)
    (sample_weight : Option Vec) (cv_steps n_jobs : Nat) (forward matching : Bool) :
    Nat → List (Option Nat) → List (List (Option ℚ)) → St →
    Except String (List (Option Nat) × List (List (Option ℚ)) × St)
  | 0, selected_features, auc_scores, clf => .ok (selected_features, auc_scores, clf)
  | Nat.succ k, selected_features, auc_scores, clf =>
    match getAllAucScores E clf selected_features X y sample_weight cv_steps n_jobs
        forward none (entropy selected_features.length) with
    | .error e => .error e
    | .ok scoresSt =>
      let auc_scores_i := scoresSt.1
      let index_best := selectBest auc_scores_i matching forward
      match matSetCol auc_scores selected_features.length auc_scores_i with
      | .error e => .error e
      | .ok auc_scores2 =>
        recLoop E entropy X y sample_weight cv_steps n_jobs forward matching k
          (selected_features ++ [index_best]) auc_scores2 scoresSt.2

/-- `recursive_feature_selection_roc_auc(clf, X, y, sample_weight, n_features,
cv_steps, n_jobs, forward, matching_features)` (source lines 17-149).

The classifier sanity assert (lines 97-103) checks exactly that `clf` has
callable `fit` and `predict_proba`; every `Env` classifier has both by
construction, so the assert passes.  `n_features` is clamped to `X.shape[1]`
when it exceeds it (lines 105-108; the accompanying log notice is out of
scope).  `auc_scores = np.zeros((X.shape[1], n_features))` (line 109) raises
`ValueError` for a negative dimension; the score matrix is stored
column-major (`auc_scores[:, j]` is entry `j` of the outer list), one column
per requested step, initialised to zeros. -/
def recursive_feature_selection_roc_auc {St : Type} (E : Env St)
    (entropy : Nat → Nat) (X : Mat) (y : Vec) (sample_weight : Option Vec)
    (n_features : Int) (cv_steps n_jobs : Nat) (forward matching : Bool) :
    Except String (List (Option Nat) × List (List (Option ℚ)) × St) :=
  let n_features2 : Int := if n_features > (width X : Int) then (width X : Int) else n_features
  if n_features2 < 0 then
    .error "ValueError: negative dimensions are not allowed"
  else
    let auc_scores := List.replicate n_features2.toNat
      (List.replicate (width X) (some (0 : ℚ)))
    recLoop E entropy X y sample_weight cv_steps n_jobs forward matching
      n_features2.toNat [] auc_scores E.clf0

/-! Proof-side vocabulary for the Selection Policy: the four configurations
optimise `keyQ` (the score itself, or its distance from 1/2) in the direction
given by `minimizeQ`; `betterB m f a b` says score `a` is strictly better than
score `b` under configuration `(m, f)`. -/

def keyQ (matching : Bool) (q : ℚ) : ℚ := if matching then |q - 1/2| else q

def minimizeQ (matching forward : Bool) : Bool := if matching then forward else !forward

def betterB (matching forward : Bool) (a b : ℚ) : Bool :=
  if minimizeQ matching forward then decide (keyQ matching a < keyQ matching b)
  else decide (keyQ matching b < keyQ matching a)

/-! Concrete instantiations of the external collaborators, used to evaluate
the embedding on explicit inputs. -/

/-- A stateless classifier predicting probability 1 for every row. -/
def clfOne : Classifier Unit :=
  { fit := fun _ _ _ _ => (), predictProba1 := fun _ X => X.map (fun _ => (1 : ℚ)) }

/-- A stateless classifier predicting the row's first feature value. -/
def clfFirst : Classifier Unit :=
  { fit := fun _ _ _ _ => (), predictProba1 := fun _ X => X.map (fun r => r.headD 0) }

/-- A recording classifier: its state is the list of training-set sizes it has
been fitted on, in order.  A freshly constructed instance has state `[]`. -/
def clfRecord : Classifier (List Nat) :=
  { fit := fun st Xtr _ _ => st ++ [Xtr.length], predictProba1 := fun _ X => X.map (fun _ => 0) }

/-- A 2-fold CV split plan on 4 samples. -/
def planAB : List (List Nat × List Nat) := [([0, 1], [2, 3]), ([2, 3], [0, 1])]

/-- The same two folds in the opposite order (so the last-processed fold
differs). -/
def planBA : List (List Nat × List Nat) := [([2, 3], [0, 1]), ([0, 1], [2, 3])]

/-- 4 samples, 2 feature columns. -/
def X4 : Mat := [[1, 10], [2, 20], [3, 30], [4, 40]]

/-- Binary labels for `X4`. -/
def y4 : Vec := [0, 0, 1, 1]

/-- Environment with the trivial classifier and a constant AUC of 1; the
splitter ignores its arguments and always yields `planAB`. -/
def envA : Env Unit :=
  { clf := clfOne, clf0 := (), auc := fun _ _ _ => 1, split := fun _ _ _ _ => planAB }

/-- Environment whose AUC primitive reports which prediction vector it was
handed: 4 for the fully accumulated vector `[1, 1, 1, 1]` that `clfOne`
produces over both folds of `planAB`, 2 for the last-fold-only vector
`[1, 1, 0, 0]`, 0 otherwise. -/
def envFlag : Env Unit :=
  { clf := clfOne, clf0 := (),
    auc := fun _ y_pred _ =>
      if y_pred = [1, 1, 1, 1] then 4 else if y_pred = [1, 1, 0, 0] then 2 else 0,
    split := fun _ _ _ _ => planAB }

/-- Environment with the recording classifier. -/
def envRecord : Env (List Nat) :=
  { clf := clfRecord, clf0 := [], auc := fun _ _ _ => 0, split := fun _ _ _ _ => planAB }

/-- Environment whose split plan depends on the `RandomState` seed: seed 0
yields `planAB`, any other seed yields `planBA`.  Predictions are the first
feature value and the AUC primitive reads entry 0 of the prediction vector,
which is written by `planAB`'s last fold (test rows 0 and 1) but not by
`planBA`'s last fold (test rows 2 and 3) — so the scores reveal which plan
was used. -/
def envSeed : Env Unit :=
  { clf := clfFirst, clf0 := (), auc := fun _ y_pred _ => y_pred.getD 0 0,
    split := fun _ _ _ r => if r = 0 then planAB else planBA }

/-! Helper lemmas. -/

theorem pyIntArray_map_some (l : List Nat) : pyIntArray (l.map some) = .ok l := by
  induction l with
  | nil => rfl
  | cons a t ih => simp [pyIntArray, ih]

/-! Claim theorems. -/

/-- C1: the claim says the Single-Candidate Scorer accumulates every fold's
test-row class-1 predictions into one full-length prediction vector before
computing a single overall AUC.  The source writes the predictions outside of
the fold loop, so only the last processed fold's test rows are ever written:
with the 2-fold plan `planAB` (last fold's test rows are 0 and 1), a
classifier predicting 1 everywhere and the AUC primitive of `envFlag` (which
reports which prediction vector it receives), the code's scorer hands the AUC
primitive the vector `[1, 1, 0, 0]` (flagged 2: fold 0's test rows 2 and 3
still hold their initial 0), while the accumulating scorer described by the
spec hands it `[1, 1, 1, 1]` (flagged 4). -/
theorem C1_last_fold_only :
    singleAucScore envFlag 0 () planAB (colsM X4 [0]) y4 none = .ok ((0, 2), ()) ∧
    singleAucScoreAccum envFlag 0 () planAB (colsM X4 [0]) y4 none = ((0, 4), ()) := by
  constructor <;> decide

/-- C2: the claim says the stage returns, for every `n_jobs` including the
sequential path `n_jobs ≤ 1`, a full-length score array with NaN exactly at
the selected indices.  On `X4` (2 feature columns, nothing selected) the
parallel path (`n_jobs = 2`) indeed returns the full-length array
`[some 1, some 1]`, but the sequential path (`n_jobs = 1`) raises
`IndexError`: line 319 rebinds `auc_scores` to the empty Python list and line
327 then assigns `auc_scores[feature_i]` into it. -/
theorem C2_sequential_stage :
    getAllAucScores envA () [] X4 y4 none 2 1 true none 0 =
      .error "IndexError: list assignment index out of range" ∧
    getAllAucScores envA () [] X4 y4 none 2 2 true none 0 =
      .ok ([some 1, some 1], ()) := by
  constructor <;> decide

/-- C3: the claim says every fold fits a fresh independent classifier instance
and the caller's prototype object is never mutated.  With the recording
classifier (state = list of training-set sizes fitted so far; a fresh instance
has state `[]`), a single scorer call over the 2-fold plan `planAB` leaves the
classifier object in state `[2, 2]`: the same aliased instance was fitted on
fold 0 and then re-fitted (`clf = clf.fit(...)`) on fold 1 carrying its
history, and the caller's prototype — state `[]` before the call — ends up in
state `[2, 2] ≠ []`. -/
theorem C3_shared_classifier_state :
    singleAucScore envRecord 0 [] planAB (colsM X4 [0]) y4 none = .ok ((0, 0), [2, 2]) ∧
    ([2, 2] : List Nat) ≠ [] := by
  constructor <;> decide

/-- C5: the claim says that for identical inputs the search returns exactly
the same selected-feature list and score matrix with `n_jobs = 1` as with
`n_jobs > 1`.  On `X4` the `n_jobs = 2` run completes
(`[some 0, some 1]` with a fully populated score matrix) while the
`n_jobs = 1` run raises `IndexError` in the sequential scoring branch, so
the two evaluation paths are not equivalent. -/
theorem C5_concurrency_divergence :
    recursive_feature_selection_roc_auc envA (fun _ => 0) X4 y4 none 2 2 1 true false ≠
    recursive_feature_selection_roc_auc envA (fun _ => 0) X4 y4 none 2 2 2 true false := by
  decide

/-- C6: with a fold count below 2 the evaluation stage raises `ValueError`,
for every dataset, classifier environment, weight vector, concurrency level
and seed — the error is returned before the split plan is built and before
any candidate is scored, as witnessed by the result being independent of the
environment's splitter, classifier and AUC primitive. -/
theorem C6_cv_steps_validation {St : Type} (E : Env St) (clf : St) (sel : List Nat)
    (X : Mat) (y : Vec) (sw : Option Vec) (cv_steps n_jobs : Nat) (forward : Bool)
    (random_state : Option Nat) (fresh : Nat) (h : cv_steps < 2) :
    getAllAucScores E clf (sel.map some) X y sw cv_steps n_jobs forward random_state fresh =
      .error "ValueError: cv_steps must be 2 or higher" := by
  simp [getAllAucScores, pyIntArray_map_some, h]

/-- C6 witness: the configuration error at the concrete input `cv_steps = 1`. -/
theorem C6_cv_steps_validation_witness :
    (1 : Nat) < 2 ∧
    getAllAucScores envA () [] X4 y4 none 1 1 true none 0 =
      .error "ValueError: cv_steps must be 2 or higher" := by
  refine ⟨by decide, ?_⟩
  have h := C6_cv_steps_validation envA () [] X4 y4 none 1 1 true none 0 (by decide)
  simpa using h

/-- C9 counterexample: the claim says that for negative `n_features` the
search loop never terminates.  In fact the run terminates before the loop is
ever entered: with `n_features = -1` the score-matrix allocation
`np.zeros((X.shape[1], n_features))` raises
`ValueError: negative dimensions are not allowed`, so
`recursive_feature_selection_roc_auc` returns (with an exception) rather than
looping forever. -/
theorem C9_counterexample :
    recursive_feature_selection_roc_auc envA (fun _ => 0) X4 y4 none (-1) 2 1 true true =
      .error "ValueError: negative dimensions are not allowed" := by
  decide

/-- C9 (amended): the loop guard is `!=` and clamping only applies when
`n_features` exceeds the total feature count, so the guard alone could never
reach equality for negative `n_features`; but the run never reaches the loop:
for every negative `n_features` (and every input and environment) the
score-matrix allocation raises `ValueError` first, so the function terminates
with a configuration error, and only `0 ≤ n_features` allows normal (non-error)
completion. -/
theorem C9_negative_allocation_error {St : Type} (E : Env St) (entropy : Nat → Nat)
    (X : Mat) (y : Vec) (sw : Option Vec) (n_features : Int) (cv_steps n_jobs : Nat)
    (forward matching : Bool) (h : n_features < 0) :
    recursive_feature_selection_roc_auc E entropy X y sw n_features cv_steps n_jobs
        forward matching =
      .error "ValueError: negative dimensions are not allowed" := by
  have h1 : ¬ n_features > (width X : Int) := by
    have : (0 : Int) ≤ (width X : Int) := Int.natCast_nonneg _
    omega
  simp only [recursive_feature_selection_roc_auc, if_neg h1, if_pos h]

/-- C9 witness: the amended claim at the concrete input `n_features = -3`. -/
theorem C9_negative_allocation_error_witness :
    (-3 : Int) < 0 ∧
    recursive_feature_selection_roc_auc envA (fun _ => 0) X4 y4 none (-3) 2 1 true true =
      .error "ValueError: negative dimensions are not allowed" :=
  ⟨by decide, C9_negative_allocation_error envA (fun _ => 0) X4 y4 none (-3) 2 1 true true (by decide)⟩

/-- C10: `recursive_feature_selection_roc_auc` passes no `random_state` to
`get_all_auc_scores` (every step's call carries `None`, see `recLoop`), so
each step's `StratifiedKFold` is seeded from a fresh
`np.random.RandomState(None)`, i.e. from ambient process entropy the caller
cannot fix.  Consequently two runs on identical inputs (same classifier,
data, labels, configuration) but different ambient entropy return different
(selected features, score matrix) results: the public entry point is not
deterministic as a two-run property. -/
theorem C10_entropy_dependence :
    recursive_feature_selection_roc_auc envSeed (fun _ => 0) X4 y4 none 1 2 2 true false ≠
    recursive_feature_selection_roc_auc envSeed (fun _ => 1) X4 y4 none 1 2 2 true false := by
  decide

/-! Order facts about the strict comparison `betterB`. -/

theorem betterB_self (m f : Bool) (a : ℚ) : betterB m f a a = false := by
  unfold betterB
  split <;> simp

theorem betterB_asymm (m f : Bool) {a b : ℚ} (h : betterB m f a b = true) :
    betterB m f b a = false := by
  cases hm : minimizeQ m f <;> simp [betterB, hm] at h ⊢ <;> linarith

theorem betterB_trans (m f : Bool) {a b c : ℚ} (h1 : betterB m f a b = true)
    (h2 : betterB m f b c = true) : betterB m f a c = true := by
  cases hm : minimizeQ m f <;> simp [betterB, hm] at h1 h2 ⊢ <;> linarith

theorem betterB_notBetter_trans (m f : Bool) {a b c : ℚ} (h1 : betterB m f a b = false)
    (h2 : betterB m f b c = false) : betterB m f a c = false := by
  cases hm : minimizeQ m f <;> simp [betterB, hm] at h1 h2 ⊢ <;> linarith

theorem betterB_of_better_notBetter (m f : Bool) {a b c : ℚ} (h1 : betterB m f a b = true)
    (h2 : betterB m f c b = false) : betterB m f a c = true := by
  cases hm : minimizeQ m f <;> simp [betterB, hm] at h1 h2 ⊢ <;> linarith

/-! Characterisation of one Selection Policy update in terms of `betterB`. -/

theorem updateBest_nan (m f : Bool) (best : Option (ℚ × Nat)) (idx : Nat) :
    updateBest m f best idx none = best := rfl

theorem updateBest_none (m f : Bool) (idx : Nat) (a : ℚ) :
    updateBest m f none idx (some a) = some (a, idx) := by
  cases m <;> cases f <;> simp [updateBest]

theorem updateBest_some (m f : Bool) (vb : ℚ) (ib : Nat) (idx : Nat) (a : ℚ) :
    updateBest m f (some (vb, ib)) idx (some a) =
      if betterB m f a vb = true then some (a, idx) else some (vb, ib) := by
  cases m <;> cases f <;> simp [updateBest, betterB, minimizeQ, keyQ, gt_iff_lt]

/-- The Selection Policy scan returns `None` exactly when it starts from
`None` and every scanned entry is NaN. -/
theorem selectLoop_eq_none (m f : Bool) :
    ∀ (l : List (Option ℚ)) (n : Nat) (acc : Option (ℚ × Nat)),
      selectLoop m f l n acc = none → acc = none ∧ ∀ x ∈ l, x = none := by
  intro l
  induction l with
  | nil =>
      intro n acc h
      simp only [selectLoop] at h
      exact ⟨h, by simp⟩
  | cons a t ih =>
      intro n acc h
      simp only [selectLoop] at h
      obtain ⟨h1, h2⟩ := ih (n + 1) (updateBest m f acc n a) h
      cases a with
      | none =>
          rw [updateBest_nan] at h1
          refine ⟨h1, ?_⟩
          intro x hx
          rcases List.mem_cons.mp hx with rfl | hx
          · rfl
          · exact h2 x hx
      | some q =>
          exfalso
          cases acc with
          | none =>
              rw [updateBest_none] at h1
              exact Option.noConfusion h1
          | some p =>
              obtain ⟨vc, ic⟩ := p
              rw [updateBest_some] at h1
              by_cases hb : betterB m f q vc = true
              · rw [if_pos hb] at h1; exact Option.noConfusion h1
              · rw [if_neg hb] at h1; exact Option.noConfusion h1

/-- Invariant of the Selection Policy scan: a returned `(value_best,
index_best)` pair (i) comes from the starting accumulator or from position
`index_best` of the scanned list, (ii) is not strictly beaten by any finite
scanned entry, (iii) weakly improves on the starting accumulator, and (iv)
strictly beats every finite scanned entry at an earlier position — the
first-encountered optimum wins because all comparisons are strict. -/
theorem selectLoop_spec (m f : Bool) :
    ∀ (l : List (Option ℚ)) (n : Nat) (acc : Option (ℚ × Nat)),
      (∀ va ia, acc = some (va, ia) → ia < n) →
      ∀ vb ib, selectLoop m f l n acc = some (vb, ib) →
        (acc = some (vb, ib) ∨ (n ≤ ib ∧ l[ib - n]? = some (some vb))) ∧
        (∀ (k : Nat) (w : ℚ), l[k]? = some (some w) → betterB m f w vb = false) ∧
        (∀ va ia, acc = some (va, ia) →
          betterB m f va vb = false ∧ ((vb = va ∧ ib = ia) ∨ betterB m f vb va = true)) ∧
        (∀ (k : Nat) (w : ℚ), l[k]? = some (some w) → n + k < ib → betterB m f vb w = true) := by
  intro l
  induction l with
  | nil =>
      intro n acc hpre vb ib h
      simp only [selectLoop] at h
      refine ⟨Or.inl h, ?_, ?_, ?_⟩
      · intro k w hk; simp at hk
      · intro va ia hacc
        rw [h] at hacc
        simp at hacc
        obtain ⟨hv, hi⟩ := hacc
        subst hv; subst hi
        exact ⟨betterB_self m f vb, Or.inl ⟨rfl, rfl⟩⟩
      · intro k w hk; simp at hk
  | cons a t ih =>
      intro n acc hpre vb ib h
      simp only [selectLoop] at h
      have hpre' : ∀ va ia, updateBest m f acc n a = some (va, ia) → ia < n + 1 := by
        intro va ia hu
        cases a with
        | none =>
            rw [updateBest_nan] at hu
            exact Nat.lt_succ_of_lt (hpre va ia hu)
        | some q =>
            cases acc with
            | none =>
                rw [updateBest_none] at hu
                simp at hu
                omega
            | some p =>
                obtain ⟨vc, ic⟩ := p
                rw [updateBest_some] at hu
                by_cases hb : betterB m f q vc = true
                · rw [if_pos hb] at hu; simp at hu; omega
                · rw [if_neg hb] at hu; simp at hu
                  have hic := hpre vc ic rfl
                  omega
      obtain ⟨IH1, IH2, IH3, IH4⟩ := ih (n + 1) (updateBest m f acc n a) hpre' vb ib h
      cases a with
      | none =>
          rw [updateBest_nan] at IH1 IH3
          refine ⟨?_, ?_, IH3, ?_⟩
          · rcases IH1 with h1 | ⟨hn, hg⟩
            · exact Or.inl h1
            · refine Or.inr ⟨by omega, ?_⟩
              have he : ib - n = (ib - (n + 1)) + 1 := by omega
              rw [he, List.getElem?_cons_succ]
              exact hg
          · intro k w hk
            cases k with
            | zero => simp at hk
            | succ k2 => exact IH2 k2 w (by simpa using hk)
          · intro k w hk hlt
            cases k with
            | zero => simp at hk
            | succ k2 => exact IH4 k2 w (by simpa using hk) (by omega)
      | some q =>
          cases acc with
          | none =>
              rw [updateBest_none] at IH1 IH3
              obtain ⟨hq1, hq2⟩ := IH3 q n rfl
              refine ⟨?_, ?_, ?_, ?_⟩
              · rcases IH1 with h1 | ⟨hn, hg⟩
                · simp at h1
                  obtain ⟨hv, hi⟩ := h1
                  subst hv; subst hi
                  refine Or.inr ⟨Nat.le_refl _, ?_⟩
                  simp
                · refine Or.inr ⟨by omega, ?_⟩
                  have he : ib - n = (ib - (n + 1)) + 1 := by omega
                  rw [he, List.getElem?_cons_succ]
                  exact hg
              · intro k w hk
                cases k with
                | zero =>
                    simp at hk
                    subst hk
                    exact hq1
                | succ k2 => exact IH2 k2 w (by simpa using hk)
              · intro va ia hacc
                simp at hacc
              · intro k w hk hlt
                cases k with
                | zero =>
                    simp at hk
                    subst hk
                    rcases hq2 with ⟨hv2, hi2⟩ | hbet
                    · omega
                    · exact hbet
                | succ k2 => exact IH4 k2 w (by simpa using hk) (by omega)
          | some p =>
              obtain ⟨vc, ic⟩ := p
              rw [updateBest_some] at IH1 IH3
              by_cases hb : betterB m f q vc = true
              · rw [if_pos hb] at IH1 IH3
                obtain ⟨hq1, hq2⟩ := IH3 q n rfl
                refine ⟨?_, ?_, ?_, ?_⟩
                · rcases IH1 with h1 | ⟨hn, hg⟩
                  · simp at h1
                    obtain ⟨hv, hi⟩ := h1
                    subst hv; subst hi
                    refine Or.inr ⟨Nat.le_refl _, ?_⟩
                    simp
                  · refine Or.inr ⟨by omega, ?_⟩
                    have he : ib - n = (ib - (n + 1)) + 1 := by omega
                    rw [he, List.getElem?_cons_succ]
                    exact hg
                · intro k w hk
                  cases k with
                  | zero =>
                      simp at hk
                      subst hk
                      exact hq1
                  | succ k2 => exact IH2 k2 w (by simpa using hk)
                · intro va ia hacc
                  simp at hacc
                  obtain ⟨hv, hi⟩ := hacc
                  subst hv; subst hi
                  rcases hq2 with ⟨hv2, hi2⟩ | hbet
                  · subst hv2
                    exact ⟨betterB_asymm m f hb, Or.inr hb⟩
                  · exact ⟨betterB_asymm m f (betterB_trans m f hbet hb),
                      Or.inr (betterB_trans m f hbet hb)⟩
                · intro k w hk hlt
                  cases k with
                  | zero =>
                      simp at hk
                      subst hk
                      rcases hq2 with ⟨hv2, hi2⟩ | hbet
                      · omega
                      · exact hbet
                  | succ k2 => exact IH4 k2 w (by simpa using hk) (by omega)
              · rw [if_neg hb] at IH1 IH3
                obtain ⟨hvc1, hvc2⟩ := IH3 vc ic rfl
                have hbf : betterB m f q vc = false := by
                  simpa using hb
                refine ⟨?_, ?_, ?_, ?_⟩
                · rcases IH1 with h1 | ⟨hn, hg⟩
                  · exact Or.inl h1
                  · refine Or.inr ⟨by omega, ?_⟩
                    have he : ib - n = (ib - (n + 1)) + 1 := by omega
                    rw [he, List.getElem?_cons_succ]
                    exact hg
                · intro k w hk
                  cases k with
                  | zero =>
                      simp at hk
                      subst hk
                      exact betterB_notBetter_trans m f hbf hvc1
                  | succ k2 => exact IH2 k2 w (by simpa using hk)
                · intro va ia hacc
                  simp at hacc
                  obtain ⟨hv, hi⟩ := hacc
                  subst hv; subst hi
                  exact ⟨hvc1, hvc2⟩
                · intro k w hk hlt
                  cases k with
                  | zero =>
                      simp at hk
                      subst hk
                      rcases hvc2 with ⟨hv2, hi2⟩ | hbet
                      · have hic := hpre vc ic rfl
                        omega
                      · exact betterB_of_better_notBetter m f hbet hbf
                  | succ k2 => exact IH4 k2 w (by simpa using hk) (by omega)

/-- C4: on a score array with at least one finite entry, the Selection Policy
returns the index optimising the configured objective over all finite entries
— minimise `|AUC - 1/2|` for `(matching, forward) = (true, true)`, maximise
`|AUC - 1/2|` for `(true, false)`, maximise the AUC for `(false, true)`,
minimise it for `(false, false)` — and among entries achieving the optimum the
lowest (first-encountered) index wins, because all comparisons are strict:
every finite entry at an index below the winner is strictly worse. -/
theorem C4_selection_policy (scores : List (Option ℚ)) (m f : Bool)
    (h : ∃ (j : Nat) (w : ℚ), scores[j]? = some (some w)) :
    ∃ i v, selectBest scores m f = some i ∧ scores[i]? = some (some v) ∧
      (∀ (j : Nat) (w : ℚ), scores[j]? = some (some w) → betterB m f w v = false) ∧
      (∀ (j : Nat) (w : ℚ), scores[j]? = some (some w) → j < i → betterB m f v w = true) ∧
      (m = true → f = true →
        ∀ (j : Nat) (w : ℚ), scores[j]? = some (some w) → |v - 1/2| ≤ |w - 1/2|) ∧
      (m = true → f = false →
        ∀ (j : Nat) (w : ℚ), scores[j]? = some (some w) → |w - 1/2| ≤ |v - 1/2|) ∧
      (m = false → f = true →
        ∀ (j : Nat) (w : ℚ), scores[j]? = some (some w) → w ≤ v) ∧
      (m = false → f = false →
        ∀ (j : Nat) (w : ℚ), scores[j]? = some (some w) → v ≤ w) := by
  cases hres : selectLoop m f scores 0 none with
  | none =>
      exfalso
      obtain ⟨j, w, hj⟩ := h
      obtain ⟨-, hall⟩ := selectLoop_eq_none m f scores 0 none hres
      obtain ⟨hlt, hEq⟩ := List.getElem?_eq_some.mp hj
      have hmem : (some w : Option ℚ) ∈ scores := hEq ▸ List.getElem_mem hlt
      exact Option.noConfusion (hall _ hmem)
  | some p =>
      obtain ⟨vb, ib⟩ := p
      obtain ⟨h1, h2, -, h4⟩ :=
        selectLoop_spec m f scores 0 none (by intro va ia hc; simp at hc) vb ib hres
      rcases h1 with h1 | ⟨-, hg⟩
      · simp at h1
      · rw [Nat.sub_zero] at hg
        refine ⟨ib, vb, by simp [selectBest, hres], hg, h2, ?_, ?_, ?_, ?_, ?_⟩
        · intro j w hj hlt
          exact h4 j w hj (by omega)
        · intro hm hf j w hj
          have hw := h2 j w hj
          subst hm; subst hf
          simp [betterB, minimizeQ, keyQ] at hw
          linarith
        · intro hm hf j w hj
          have hw := h2 j w hj
          subst hm; subst hf
          simp [betterB, minimizeQ, keyQ] at hw
          linarith
        · intro hm hf j w hj
          have hw := h2 j w hj
          subst hm; subst hf
          simp [betterB, minimizeQ, keyQ] at hw
          linarith
        · intro hm hf j w hj
          have hw := h2 j w hj
          subst hm; subst hf
          simp [betterB, minimizeQ, keyQ] at hw
          linarith

/-- Concrete score array for exercising the Selection Policy: a NaN entry,
then the maximum 3 reached twice (indices 1 and 3), and a 2 in between. -/
def scoresW : List (Option ℚ) := [none, some 3, some 2, some 3]

/-- C4 witness: the Selection Policy theorem applied to `scoresW` with the
maximise-AUC configuration (`matching_features = false`, `forward = true`);
the finiteness hypothesis is discharged at index 1. -/
theorem C4_selection_policy_witness :
    (∃ (j : Nat) (w : ℚ), scoresW[j]? = some (some w)) ∧
    (∃ i v, selectBest scoresW false true = some i ∧ scoresW[i]? = some (some v) ∧
      (∀ (j : Nat) (w : ℚ), scoresW[j]? = some (some w) → betterB false true w v = false) ∧
      (∀ (j : Nat) (w : ℚ), scoresW[j]? = some (some w) → j < i → betterB false true v w = true) ∧
      (false = true → true = true →
        ∀ (j : Nat) (w : ℚ), scoresW[j]? = some (some w) → |v - 1/2| ≤ |w - 1/2|) ∧
      (false = true → true = false →
        ∀ (j : Nat) (w : ℚ), scoresW[j]? = some (some w) → |w - 1/2| ≤ |v - 1/2|) ∧
      (false = false → true = true →
        ∀ (j : Nat) (w : ℚ), scoresW[j]? = some (some w) → w ≤ v) ∧
      (false = false → true = false →
        ∀ (j : Nat) (w : ℚ), scoresW[j]? = some (some w) → v ≤ w)) :=
  ⟨⟨1, 3, by decide⟩, C4_selection_policy scoresW false true ⟨1, 3, by decide⟩⟩

/-! Helper lemmas for the parallel evaluation stage and the search loop. -/

theorem getD_mem {α : Type} (l : List α) (j : Nat) (d : α) (h : j < l.length) :
    l.getD j d ∈ l := by
  induction l generalizing j with
  | nil => simp at h
  | cons a t ih =>
      cases j with
      | zero => simp
      | succ j2 =>
          simp only [List.getD_cons_succ]
          exact List.mem_cons_of_mem a (ih j2 (by simpa using h))

theorem setFold_length (ps : List (Nat × ℚ)) :
    ∀ acc : List (Option ℚ),
      (ps.foldl (fun a r => a.set r.1 (some r.2)) acc).length = acc.length := by
  induction ps with
  | nil => intro acc; rfl
  | cons p t ih => intro acc; rw [List.foldl_cons, ih, List.length_set]

theorem setFold_getElem_not_mem (ps : List (Nat × ℚ)) :
    ∀ (acc : List (Option ℚ)) (i : Nat), ¬ i ∈ ps.map Prod.fst →
      (ps.foldl (fun a r => a.set r.1 (some r.2)) acc)[i]? = acc[i]? := by
  induction ps with
  | nil => intro acc i _; rfl
  | cons p t ih =>
      intro acc i hi
      simp only [List.map_cons, List.mem_cons] at hi
      push_neg at hi
      rw [List.foldl_cons, ih _ _ hi.2, List.getElem?_set_ne (Ne.symm hi.1)]

theorem setFold_getElem_isSome (ps : List (Nat × ℚ)) :
    ∀ (acc : List (Option ℚ)) (i : Nat), i < acc.length →
      (i ∈ ps.map Prod.fst ∨ ∃ q : ℚ, acc[i]? = some (some q)) →
      ∃ q : ℚ, (ps.foldl (fun a r => a.set r.1 (some r.2)) acc)[i]? = some (some q) := by
  induction ps with
  | nil =>
      intro acc i hlen hmem
      rcases hmem with hmem | hmem
      · simp at hmem
      · exact hmem
  | cons p t ih =>
      intro acc i hlen hmem
      rw [List.foldl_cons]
      apply ih _ _ (by rw [List.length_set]; exact hlen)
      by_cases he : i = p.1
      · subst he
        exact Or.inr ⟨p.2, List.getElem?_set_self hlen⟩
      · rcases hmem with hmem | hmem
        · simp only [List.map_cons, List.mem_cons] at hmem
          rcases hmem with h1 | h1
          · exact absurd h1 he
          · exact Or.inl h1
        · refine Or.inr ?_
          rw [List.getElem?_set_ne (fun hh => he hh.symm)]
          exact hmem

/-- With a nonempty CV split plan, the Single-Candidate Scorer succeeds and
returns the candidate's own feature index. -/
theorem singleAucScore_ok {St : Type} (E : Env St) (fi : Nat) (clf : St)
    (plan : List (List Nat × List Nat)) (Xc : Mat) (y : Vec) (sw : Option Vec)
    (h : plan ≠ []) :
    ∃ r : (Nat × ℚ) × St, singleAucScore E fi clf plan Xc y sw = .ok r ∧ r.1.1 = fi := by
  rcases hl : plan.getLast? with - | p
  · exact absurd (List.getLast?_eq_none_iff.mp hl) h
  · simp only [singleAucScore, hl]
    exact ⟨_, rfl, rfl⟩

theorem mapM_fst {α : Type} (g : Nat × α → Except String (Nat × ℚ)) :
    ∀ (l : List (Nat × α)),
      (∀ p ∈ l, ∃ a : ℚ, g p = .ok (p.1, a)) →
      ∃ res, l.mapM g = .ok res ∧ res.map Prod.fst = l.map Prod.fst := by
  intro l
  induction l with
  | nil => intro _; exact ⟨[], rfl, rfl⟩
  | cons p t ih =>
      intro hall
      obtain ⟨a, ha⟩ := hall p (List.mem_cons_self p t)
      obtain ⟨res, hres, hmap⟩ := ih (fun q hq => hall q (List.mem_cons_of_mem p hq))
      refine ⟨(p.1, a) :: res, ?_, by simp [hmap]⟩
      rw [List.mapM_cons, ha, hres]
      rfl

/-- Pigeonhole: a duplicate-free list of fewer than `total` indices leaves
some index below `total` unused. -/
theorem exists_unselected (selN : List Nat) (total : Nat) (hnd : selN.Nodup)
    (hlen : selN.length < total) :
    ∃ i, i < total ∧ ¬ i ∈ selN := by
  by_contra hc
  push_neg at hc
  have hsub : Finset.range total ⊆ selN.toFinset := by
    intro i hi
    rw [List.mem_toFinset]
    exact hc i (Finset.mem_range.mp hi)
  have hcard := Finset.card_le_card hsub
  rw [Finset.card_range, List.toFinset_card_of_nodup hnd] at hcard
  omega

/-- The Selection Policy returns some finite position whenever a finite score
exists. -/
theorem selectBest_mem (scores : List (Option ℚ)) (m f : Bool)
    (h : ∃ (j : Nat) (w : ℚ), scores[j]? = some (some w)) :
    ∃ (i : Nat) (v : ℚ), selectBest scores m f = some i ∧ scores[i]? = some (some v) := by
  cases hres : selectLoop m f scores 0 none with
  | none =>
      exfalso
      obtain ⟨j, w, hj⟩ := h
      obtain ⟨-, hall⟩ := selectLoop_eq_none m f scores 0 none hres
      obtain ⟨hlt, hEq⟩ := List.getElem?_eq_some_iff.mp hj
      have hmem : (some w : Option ℚ) ∈ scores := hEq ▸ List.getElem_mem hlt
      exact Option.noConfusion (hall _ hmem)
  | some p =>
      obtain ⟨vb, ib⟩ := p
      obtain ⟨h1, -, -, -⟩ :=
        selectLoop_spec m f scores 0 none (by intro va ia hc; simp at hc) vb ib hres
      rcases h1 with h1 | ⟨-, hg⟩
      · simp at h1
      · exact ⟨ib, vb, by simp [selectBest, hres], by simpa using hg⟩
/-- On the `n_jobs > 1` branch with valid fold count and nonempty split
plans, the Parallel Evaluation Stage succeeds: it returns (leaving the
prototype untouched) a score array of length `X.shape[1]` whose entries are
finite exactly at the candidate (not-yet-selected, in-range) indices. -/
theorem getAllAucScores_parallel {St : Type} (E : Env St) (clf : St) (selN : List Nat)
    (X : Mat) (y : Vec) (sw : Option Vec) (cv nj : Nat) (fwd : Bool)
    (rsa : Option Nat) (fresh : Nat) (hcv : ¬ cv < 2) (hnj : nj > 1)
    (hplan : ∀ A b c d, E.split A b c d ≠ []) :
    ∃ scores, getAllAucScores E clf (selN.map some) X y sw cv nj fwd rsa fresh = .ok (scores, clf) ∧
      scores.length = width X ∧
      (∀ i : Nat, i < width X → ¬ i ∈ selN → ∃ q : ℚ, scores[i]? = some (some q)) ∧
      (∀ (i : Nat) (q : ℚ), scores[i]? = some (some q) → i < width X ∧ ¬ i ∈ selN) := by
  set rs : Nat := (match rsa with | some r => r | none => fresh) with hrs
  set tf : List Nat := (List.range (width X)).filter (fun i => decide (i ∉ selN)) with htf
  set ts : List (Nat × List Nat) :=
    tf.map (fun fi => if fwd then (fi, sortNat (selN ++ [fi])) else (fi, tf.erase fi)) with hts
  have hfst : ts.map Prod.fst = tf := by
    rw [hts, List.map_map]
    exact List.map_id'' (fun fi => by cases fwd <;> rfl) tf
  have hm : ∀ p ∈ ts, ∃ a : ℚ,
      ((singleAucScore E p.1 clf (E.split X y cv rs) (colsM X p.2) y sw).map (fun r => r.1))
        = .ok (p.1, a) := by
    intro p hp
    obtain ⟨r, hok, hfi⟩ :=
      singleAucScore_ok E p.1 clf (E.split X y cv rs) (colsM X p.2) y sw (hplan X y cv rs)
    refine ⟨r.1.2, ?_⟩
    rw [hok]
    show Except.ok r.1 = Except.ok (p.1, r.1.2)
    rw [← hfi]
  obtain ⟨res, hres, hmap⟩ := mapM_fst _ ts hm
  refine ⟨res.foldl (fun acc r => acc.set r.1 (some r.2)) (List.replicate (width X) none),
    ?_, ?_, ?_, ?_⟩
  · simp only [getAllAucScores, pyIntArray_map_some, if_neg hcv, if_pos hnj]
    rw [← hrs, ← htf, ← hts, hres]
  · rw [setFold_length, List.length_replicate]
  · intro i hi hni
    apply setFold_getElem_isSome
    · rw [List.length_replicate]; exact hi
    · left
      rw [hmap, hfst, htf]
      simp only [List.mem_filter, List.mem_range, decide_eq_true_eq]
      exact ⟨hi, hni⟩
  · intro i q hq
    by_cases hmem : i ∈ res.map Prod.fst
    · rw [hmap, hfst, htf] at hmem
      simp only [List.mem_filter, List.mem_range, decide_eq_true_eq] at hmem
      exact hmem
    · rw [setFold_getElem_not_mem _ _ _ hmem] at hq
      rcases lt_or_ge i (width X) with hlt | hge
      · rw [List.getElem?_replicate, if_pos hlt] at hq
        simp at hq
      · rw [List.getElem?_replicate, if_neg (by omega)] at hq
        simp at hq

/-- Invariant of the search loop on the `n_jobs > 1` branch: starting from a
duplicate-free selection, `k` further iterations succeed and append exactly
`k` fresh (pairwise distinct, not-yet-selected) indices, one per iteration. -/
theorem recLoop_ok {St : Type} (E : Env St) (entropy : Nat → Nat) (X : Mat) (y : Vec)
    (sw : Option Vec) (cv nj : Nat) (fwd mtch : Bool)
    (hcv : ¬ cv < 2) (hnj : nj > 1) (hplan : ∀ A b c d, E.split A b c d ≠ []) :
    ∀ (k : Nat) (selN : List Nat) (mat : List (List (Option ℚ))) (clf : St),
      selN.Nodup →
      selN.length + k ≤ width X →
      selN.length + k ≤ mat.length →
      (∀ c ∈ mat, c.length = width X) →
      ∃ (selAdd : List Nat) (mat2 : List (List (Option ℚ))) (clf2 : St),
        recLoop E entropy X y sw cv nj fwd mtch k (selN.map some) mat clf =
          .ok ((selN ++ selAdd).map some, mat2, clf2) ∧
        selAdd.length = k ∧ (selN ++ selAdd).Nodup := by
  intro k
  induction k with
  | zero =>
      intro selN mat clf hnd _ _ _
      exact ⟨[], mat, clf, by simp [recLoop], rfl, by simpa using hnd⟩
  | succ k ih =>
      intro selN mat clf hnd hlenX hlenM hcols
      obtain ⟨scores, hok, hslen, hfin, hfin2⟩ :=
        getAllAucScores_parallel E clf selN X y sw cv nj fwd none
          (entropy (selN.map some).length) hcv hnj hplan
      obtain ⟨i0, hi0lt, hi0nm⟩ := exists_unselected selN (width X) hnd (by omega)
      obtain ⟨q0, hq0⟩ := hfin i0 hi0lt hi0nm
      obtain ⟨ib, vb, hsb, hib⟩ := selectBest_mem scores mtch fwd ⟨i0, q0, hq0⟩
      obtain ⟨hiblt, hibnm⟩ := hfin2 ib vb hib
      have hjlt : (selN.map some).length < mat.length := by
        rw [List.length_map]; omega
      have hcol : scores.length = (mat.getD (selN.map some).length []).length := by
        rw [hslen, hcols _ (getD_mem mat _ [] hjlt)]
      have hnd2 : (selN ++ [ib]).Nodup := by
        rw [List.nodup_append]
        refine ⟨hnd, List.nodup_singleton ib, ?_⟩
        intro a ha hb
        rw [List.mem_singleton] at hb
        subst hb
        exact hibnm ha
      obtain ⟨selAdd2, mat2, clf2, hrec, hlen2, hnd3⟩ :=
        ih (selN ++ [ib]) (mat.set (selN.map some).length scores) clf
          (hnd2)
          (by simp; omega)
          (by rw [List.length_set]; simp; omega)
          (by
            intro c hc
            rcases List.mem_or_eq_of_mem_set hc with hc | hc
            · exact hcols c hc
            · rw [hc, hslen])
      refine ⟨ib :: selAdd2, mat2, clf2, ?_, by simpa using hlen2, ?_⟩
      · simp only [recLoop, hok, hsb, matSetCol, if_pos hjlt, if_pos hcol]
        have he : (selN.map some) ++ [some ib] = (selN ++ [ib]).map some := by
          simp
        rw [he, hrec]
        have he2 : (selN ++ [ib]) ++ selAdd2 = selN ++ ib :: selAdd2 := by
          simp
        rw [he2]
      · have he2 : (selN ++ [ib]) ++ selAdd2 = selN ++ ib :: selAdd2 := by
          simp
        rw [← he2]
        exact hnd3

/-- C8: whenever the search completes (valid fold count, worker concurrency
above 1 so the evaluation stage succeeds, nonempty split plans, non-negative
requested count), the Search State grew by exactly one feature index per
completed step (`recLoop_ok` adds one index per iteration), contains no index
twice, and its final length is exactly the clamped requested feature count
`min n_features X.shape[1]`; no entry is the Python `None`. -/
theorem C8_search_state_invariant {St : Type} (E : Env St) (entropy : Nat → Nat)
    (X : Mat) (y : Vec) (sw : Option Vec) (n_features : Int) (cv nj : Nat)
    (fwd mtch : Bool) (hnf : 0 ≤ n_features) (hcv : 2 ≤ cv) (hnj : 1 < nj)
    (hplan : ∀ A b c d, E.split A b c d ≠ []) :
    ∃ sel mat clf2,
      recursive_feature_selection_roc_auc E entropy X y sw n_features cv nj fwd mtch =
        .ok (sel, mat, clf2) ∧
      sel.length = (min n_features (width X : Int)).toNat ∧
      sel.Nodup ∧ ∀ x ∈ sel, x ≠ none := by
  have hnf2 : (if n_features > (width X : Int) then (width X : Int) else n_features) =
      min n_features (width X : Int) := by
    split <;> omega
  have h0 : ¬ min n_features (width X : Int) < 0 := by omega
  obtain ⟨selAdd, mat2, clf2, hrec, hlen, hnd⟩ :=
    recLoop_ok E entropy X y sw cv nj fwd mtch (by omega) hnj hplan
      (min n_features (width X : Int)).toNat []
      (List.replicate (min n_features (width X : Int)).toNat
        (List.replicate (width X) (some (0 : ℚ)))) E.clf0
      (List.nodup_nil)
      (by simp only [List.length_nil, Nat.zero_add]; omega)
      (by simp only [List.length_nil, Nat.zero_add, List.length_replicate]; exact Nat.le_refl _)
      (by intro c hc; rw [List.eq_of_mem_replicate hc, List.length_replicate])
  refine ⟨selAdd.map some, mat2, clf2, ?_, by simp [hlen], ?_, ?_⟩
  · simp only [recursive_feature_selection_roc_auc, hnf2, if_neg h0]
    simpa using hrec
  · exact (List.Nodup.map (Option.some_injective _) (by simpa using hnd))
  · intro x hx
    rw [List.mem_map] at hx
    obtain ⟨a, -, ha⟩ := hx
    rw [← ha]
    exact Option.some_ne_none a

/-- C8 witness: a completing concrete run — `X4` (2 features), `n_features =
2`, `cv_steps = 2`, `n_jobs = 2` — via the invariant theorem, every
hypothesis discharged at the concrete input. -/
theorem C8_search_state_invariant_witness :
    ((0 : Int) ≤ 2 ∧ 2 ≤ 2 ∧ 1 < 2 ∧ (∀ A b c d, envA.split A b c d ≠ [])) ∧
    (∃ sel mat clf2,
      recursive_feature_selection_roc_auc envA (fun _ => 0) X4 y4 none 2 2 2 true false =
        .ok (sel, mat, clf2) ∧
      sel.length = (min 2 (width X4 : Int)).toNat ∧
      sel.Nodup ∧ ∀ x ∈ sel, x ≠ none) :=
  ⟨⟨by decide, by decide, by decide, by intro A b c d; show planAB ≠ []; decide⟩,
    C8_search_state_invariant envA (fun _ => 0) X4 y4 none 2 2 2 true false
      (by decide) (by decide) (by decide) (by intro A b c d; show planAB ≠ []; decide)⟩

/-- C7 counterexample: the claim says that whenever `n_features` exceeds the
number of feature columns the search completes without raising any error.  At
the concrete input `X4` (2 columns), `n_features = 5`, `cv_steps = 2` and the
default sequential concurrency `n_jobs = 1`, the request is clamped to 2 but
the run then raises `IndexError` in the sequential scoring branch instead of
completing. -/
theorem C7_counterexample :
    recursive_feature_selection_roc_auc envA (fun _ => 0) X4 y4 none 5 2 1 true false =
      .error "IndexError: list assignment index out of range" := by
  decide

/-- C7 (amended): when `n_features` exceeds the total feature count the
request is silently clamped and never rejected — no configuration error is
raised for the excess — and provided the per-step evaluation succeeds
(worker concurrency above 1, valid fold count, nonempty split plans) the
search completes and returns a selected-features list of length exactly the
total number of available features. -/
theorem C7_clamped_completion {St : Type} (E : Env St) (entropy : Nat → Nat)
    (X : Mat) (y : Vec) (sw : Option Vec) (n_features : Int) (cv nj : Nat)
    (fwd mtch : Bool) (hnf : (width X : Int) < n_features) (hcv : 2 ≤ cv)
    (hnj : 1 < nj) (hplan : ∀ A b c d, E.split A b c d ≠ []) :
    ∃ sel mat clf2,
      recursive_feature_selection_roc_auc E entropy X y sw n_features cv nj fwd mtch =
        .ok (sel, mat, clf2) ∧
      sel.length = width X ∧ sel.Nodup := by
  have hnf2 : (if n_features > (width X : Int) then (width X : Int) else n_features) =
      ((width X : Nat) : Int) := by
    rw [if_pos hnf]
  have h0 : ¬ ((width X : Nat) : Int) < 0 := by omega
  obtain ⟨selAdd, mat2, clf2, hrec, hlen, hnd⟩ :=
    recLoop_ok E entropy X y sw cv nj fwd mtch (by omega) hnj hplan
      ((width X : Int)).toNat []
      (List.replicate ((width X : Int)).toNat
        (List.replicate (width X) (some (0 : ℚ)))) E.clf0
      (List.nodup_nil)
      (by simp only [List.length_nil, Nat.zero_add, Int.toNat_ofNat]; exact Nat.le_refl _)
      (by simp only [List.length_nil, Nat.zero_add, List.length_replicate]; exact Nat.le_refl _)
      (by intro c hc; rw [List.eq_of_mem_replicate hc, List.length_replicate])
  refine ⟨selAdd.map some, mat2, clf2, ?_, ?_, ?_⟩
  · simp only [recursive_feature_selection_roc_auc, hnf2, if_neg h0]
    simpa using hrec
  · rw [List.length_map, hlen, Int.toNat_ofNat]
  · exact (List.Nodup.map (Option.some_injective _) (by simpa using hnd))

/-- C7 witness: the amended claim at the concrete input `n_features = 5` over
the 2-column `X4` with `n_jobs = 2`: the run completes with exactly 2
selected features. -/
theorem C7_clamped_completion_witness :
    ((width X4 : Int) < 5 ∧ 2 ≤ 2 ∧ 1 < 2 ∧ (∀ A b c d, envA.split A b c d ≠ [])) ∧
    (∃ sel mat clf2,
      recursive_feature_selection_roc_auc envA (fun _ => 0) X4 y4 none 5 2 2 true false =
        .ok (sel, mat, clf2) ∧
      sel.length = width X4 ∧ sel.Nodup) :=
  ⟨⟨by decide, by decide, by decide, by intro A b c d; show planAB ≠ []; decide⟩,
    C7_clamped_completion envA (fun _ => 0) X4 y4 none 5 2 2 true false
      (by decide) (by decide) (by decide) (by intro A b c d; show planAB ≠ []; decide)⟩
